import Mathlib

/-!
Verification of the minigo `MctsPlayer` (cc/mcts_player.cc).

The file gives a shallow embedding of the player's operations:
`TimeRecommendation`, the leaf-selection loop of `SelectLeaves`, the
fixed-readout search loop of `SuggestMove`, `PickMove`, the search-pi
computation of `UpdateGame`, the symmetry de-augmentation and
inference-record bookkeeping of `ProcessLeaves`, `PlayMove` and
`UndoMove`.  External collaborators whose code is not part of the
sources (the `MctsNode` tree, `Position` legality and scoring, the
`DualNet` predictor, the symmetry library, the inference cache and the
`Game` history) are modelled from the specification's contracts.
C++ `float` arithmetic is idealised as exact rational arithmetic.
-/

set_option autoImplicit false

namespace Minigo

/-- Truncation of a rational toward zero, the semantics of the C++
`float` to `int` conversion used for `core_moves` in
`TimeRecommendation`.  Division is only applied to non-negative
operands, so the result is truncation under any integer-division
convention. -/
def ratTrunc (q : ℚ) : ℤ :=
  if q.num < 0 then -((-q.num) / (q.den : ℤ)) else q.num / (q.den : ℤ)

/-- On non-negative rationals, truncation toward zero agrees with the
floor function. -/
theorem ratTrunc_eq_floor (q : ℚ) (h : 0 ≤ q) : ratTrunc q = ⌊q⌋ := by
  have hn : ¬ q.num < 0 := not_lt.mpr (Rat.num_nonneg.mpr h)
  rw [ratTrunc, if_neg hn, Rat.floor_def]

/-- Embedding of `TimeRecommendation` (mcts_player.cc lines 49-72):
`player_move_num = move_num / 2` (integer division), the geometric
series total `endgame_time = seconds_per_move / (1 - decay_factor)`,
and either the endgame branch (`base_time = time_limit * (1 -
decay_factor)`, `core_moves = 0`) or the core branch (`base_time =
seconds_per_move`, `core_moves` the truncated quotient), returning
`base_time * decay_factor ^ max (player_move_num - core_moves) 0`. -/
def TimeRecommendation (move_num : ℕ) (seconds_per_move time_limit decay_factor : ℚ) : ℚ :=
  let player_move_num : ℕ := move_num / 2
  let endgame_time : ℚ := seconds_per_move / (1 - decay_factor)
  let base_time : ℚ :=
    if endgame_time > time_limit then time_limit * (1 - decay_factor) else seconds_per_move
  let core_moves : ℤ :=
    if endgame_time > time_limit then 0
    else ratTrunc ((time_limit - endgame_time) / seconds_per_move)
  base_time * decay_factor ^ (max ((player_move_num : ℤ) - core_moves) 0).toNat

/-- C4: when `endgame_time = seconds_per_move / (1 - decay_factor) ≤
time_limit`, `TimeRecommendation` returns `seconds_per_move *
decay_factor ^ max (move_num/2 - core_moves) 0` with `core_moves =
⌊(time_limit - endgame_time) / seconds_per_move⌋`; in particular
`TimeRecommendation 0 1 100 0.98 = 1`. -/
theorem timeRecommendation_core_phase (m : ℕ) (spm tl df : ℚ)
    (hspm : 0 < spm) (hle : spm / (1 - df) ≤ tl) :
    TimeRecommendation m spm tl df
      = spm * df ^ (max (((m / 2 : ℕ) : ℤ) - ⌊(tl - spm / (1 - df)) / spm⌋) 0).toNat
      ∧ TimeRecommendation 0 1 100 (98/100) = 1 := by
  constructor
  · have hng : ¬ spm / (1 - df) > tl := not_lt.mpr hle
    have hnum : 0 ≤ (tl - spm / (1 - df)) / spm :=
      div_nonneg (sub_nonneg.mpr hle) (le_of_lt hspm)
    simp only [TimeRecommendation, if_neg hng]
    rw [ratTrunc_eq_floor _ hnum]
  · norm_num [TimeRecommendation, ratTrunc]

/-- Witness for `timeRecommendation_core_phase` at `move_num = 0`,
`seconds_per_move = 1`, `time_limit = 100`, `decay_factor = 0.98`. -/
theorem timeRecommendation_core_phase_witness :
    (0 : ℚ) < 1 ∧ (1 : ℚ) / (1 - 98/100) ≤ 100 ∧ TimeRecommendation 0 1 100 (98/100) = 1 :=
  ⟨by norm_num, by norm_num,
    (timeRecommendation_core_phase 0 1 100 (98/100) (by norm_num) (by norm_num)).2⟩

/-- C5 counterexample: in the endgame branch (`endgame_time >
time_limit`) the function does not return `time_limit * (1 -
decay_factor)` for every move number: at `move_num = 2`,
`seconds_per_move = 1`, `time_limit = 1`, `decay_factor = 1/2` the
branch condition holds but the result is `1/4`, not `1/2`. -/
theorem timeRecommendation_endgame_counterexample :
    (1 : ℚ) < 1 / (1 - 1/2) ∧ TimeRecommendation 2 1 1 (1/2) ≠ 1 * (1 - 1/2) := by
  constructor
  · norm_num
  · norm_num [TimeRecommendation, ratTrunc]

/-- C5 amended: when `endgame_time > time_limit`, `TimeRecommendation`
uses base allocation `time_limit * (1 - decay_factor)` with zero core
moves, so decay applies from the first move and the result is
`time_limit * (1 - decay_factor) * decay_factor ^ (move_num / 2)`. -/
theorem timeRecommendation_endgame_phase (m : ℕ) (spm tl df : ℚ)
    (h : tl < spm / (1 - df)) :
    TimeRecommendation m spm tl df = tl * (1 - df) * df ^ (m / 2) := by
  have hg : spm / (1 - df) > tl := h
  simp only [TimeRecommendation, if_pos hg, sub_zero]
  congr 1
  rw [max_eq_left (Int.natCast_nonneg _), Int.toNat_natCast]

/-- Witness for `timeRecommendation_endgame_phase` at `move_num = 2`,
`seconds_per_move = 1`, `time_limit = 1`, `decay_factor = 1/2`. -/
theorem timeRecommendation_endgame_phase_witness :
    (1 : ℚ) < 1 / (1 - 1/2) ∧ TimeRecommendation 2 1 1 (1/2) = 1 * (1 - 1/2) * (1/2) ^ (2 / 2) :=
  ⟨by norm_num, timeRecommendation_endgame_phase 2 1 1 (1/2) (by norm_num)⟩

/-- One resolution of a tree descent inside `MctsPlayer::SelectLeaves`
(mcts_player.cc lines 209-243): the selected leaf is either terminal
(game over or move limit, back-propagated immediately and counted as a
cache miss), a cache hit (cached output incorporated, not counted), or
a fresh leaf that is appended to the batch (counted as a cache miss).
The descent itself (`MctsNode::SelectLeaf`) is tree code outside the
sources; modelled from the spec as an oracle sequence of resolutions. -/
inductive Descent (L : Type) where
  | terminal (value : ℤ)
  | cacheHit
  | fresh (leaf : L)

/-- State of the `SelectLeaves` loop: the output vector of pending
leaves, the per-node count of virtual losses applied during this call
(`MctsNode::AddVirtualLoss` is modelled from the spec invariant that
every batched leaf carries exactly one pending virtual loss), and the
`num_cache_misses` / `num_cache_hits` counters. -/
structure SelSt (L : Type) where
  leaves : List L
  vloss : L → ℕ
  misses : ℕ
  hits : ℕ

/-- Appending a fresh leaf: apply one virtual loss to it, push it onto
the output vector and count one cache miss (mcts_player.cc lines
231-234). -/
def pushLeaf {L : Type} [DecidableEq L] (s : SelSt L) (leaf : L) : SelSt L where
  leaves := s.leaves ++ [leaf]
  vloss := fun x => if x = leaf then s.vloss x + 1 else s.vloss x
  misses := s.misses + 1
  hits := s.hits

/-- The `while (num_cache_misses < max_cache_misses)` loop of
`SelectLeaves`, consuming one descent resolution per iteration; the
loop also breaks once `num_leaves` leaves are selected or when the
selected fresh leaf is the root itself. -/
def selectLoop {L : Type} [DecidableEq L] (root : L) (numLeaves maxMisses : ℕ) :
    List (Descent L) → SelSt L → SelSt L
  | [], s => s
  | d :: ds, s =>
    if s.misses < maxMisses then
      match d with
      | .terminal _ => selectLoop root numLeaves maxMisses ds
          { leaves := s.leaves, vloss := s.vloss, misses := s.misses + 1, hits := s.hits }
      | .cacheHit => selectLoop root numLeaves maxMisses ds
          { leaves := s.leaves, vloss := s.vloss, misses := s.misses, hits := s.hits + 1 }
      | .fresh leaf =>
        if (pushLeaf s leaf).leaves.length = numLeaves then pushLeaf s leaf
        else if leaf = root then pushLeaf s leaf
        else selectLoop root numLeaves maxMisses ds (pushLeaf s leaf)
    else s

/-- Embedding of `MctsPlayer::SelectLeaves`: run the selection loop with miss bound
`num_leaves * 2` from an empty batch with no virtual losses applied. -/
def SelectLeaves {L : Type} [DecidableEq L] (root : L) (numLeaves : ℕ)
    (ds : List (Descent L)) : SelSt L :=
  selectLoop root numLeaves (numLeaves * 2) ds ⟨[], fun _ => 0, 0, 0⟩

/-- The fresh leaves occurring in a descent-resolution sequence. -/
def freshLeaves {L : Type} : List (Descent L) → List L
  | [] => []
  | .fresh l :: ds => l :: freshLeaves ds
  | .terminal _ :: ds => freshLeaves ds
  | .cacheHit :: ds => freshLeaves ds

/-- Loop invariant for `selectLoop`: starting below the miss bound and
the batch size, with fresh leaves pairwise distinct and disjoint from
the already selected ones, the loop keeps the miss counter within the
bound, selects at most `numLeaves` leaves, and the virtual-loss count
is exactly one on selected leaves and zero elsewhere. -/
theorem selectLoop_invariant {L : Type} [DecidableEq L] (root : L)
    (numLeaves maxMisses : ℕ) (ds : List (Descent L)) :
    ∀ s : SelSt L,
      s.misses ≤ maxMisses →
      s.leaves.length < numLeaves →
      (freshLeaves ds).Nodup →
      (∀ l ∈ freshLeaves ds, l ∉ s.leaves) →
      (∀ l ∈ s.leaves, s.vloss l = 1) →
      (∀ l, l ∉ s.leaves → s.vloss l = 0) →
      (selectLoop root numLeaves maxMisses ds s).misses ≤ maxMisses
      ∧ (selectLoop root numLeaves maxMisses ds s).leaves.length ≤ numLeaves
      ∧ (∀ l ∈ (selectLoop root numLeaves maxMisses ds s).leaves,
          (selectLoop root numLeaves maxMisses ds s).vloss l = 1)
      ∧ (∀ l, l ∉ (selectLoop root numLeaves maxMisses ds s).leaves →
          (selectLoop root numLeaves maxMisses ds s).vloss l = 0) := by
  induction ds with
  | nil =>
    intro s h1 h2 _ _ h5 h6
    exact ⟨h1, le_of_lt h2, h5, h6⟩
  | cons d ds ih =>
    intro s h1 h2 h3 h4 h5 h6
    by_cases hm : s.misses < maxMisses
    · cases d with
      | terminal v =>
        simp only [selectLoop, if_pos hm]
        exact ih { leaves := s.leaves, vloss := s.vloss, misses := s.misses + 1, hits := s.hits }
          hm h2 h3 h4 h5 h6
      | cacheHit =>
        simp only [selectLoop, if_pos hm]
        exact ih { leaves := s.leaves, vloss := s.vloss, misses := s.misses, hits := s.hits + 1 }
          h1 h2 h3 h4 h5 h6
      | fresh leaf =>
        have hnd : leaf ∉ freshLeaves ds ∧ (freshLeaves ds).Nodup := by
          rw [freshLeaves, List.nodup_cons] at h3; exact h3
        have hleaf : leaf ∉ s.leaves := h4 leaf (by rw [freshLeaves]; exact List.mem_cons_self _ _)
        have hv1 : ∀ l ∈ (pushLeaf s leaf).leaves, (pushLeaf s leaf).vloss l = 1 := by
          intro l hl
          rcases List.mem_append.mp hl with hl' | hl'
          · have hne : l ≠ leaf := fun he => hleaf (he ▸ hl')
            simp only [pushLeaf, if_neg hne]
            exact h5 l hl'
          · have he : l = leaf := List.mem_singleton.mp hl'
            rw [he]
            show (if leaf = leaf then s.vloss leaf + 1 else s.vloss leaf) = 1
            rw [if_pos rfl, h6 leaf hleaf]
        have hv0 : ∀ l, l ∉ (pushLeaf s leaf).leaves → (pushLeaf s leaf).vloss l = 0 := by
          intro l hl
          have hl1 : l ∉ s.leaves := fun hx => hl (List.mem_append.mpr (Or.inl hx))
          have hne : l ≠ leaf := fun he =>
            hl (List.mem_append.mpr (Or.inr (List.mem_singleton.mpr he)))
          simp only [pushLeaf, if_neg hne]
          exact h6 l hl1
        have hlen : (pushLeaf s leaf).leaves.length = s.leaves.length + 1 := by
          simp [pushLeaf]
        have hlen' : (pushLeaf s leaf).leaves.length ≤ numLeaves := by
          rw [hlen]; exact h2
        have hmiss : (pushLeaf s leaf).misses ≤ maxMisses := hm
        by_cases hfull : (pushLeaf s leaf).leaves.length = numLeaves
        · simp only [selectLoop, if_pos hm, if_pos hfull]
          exact ⟨hmiss, le_of_eq hfull, hv1, hv0⟩
        · by_cases hroot : leaf = root
          · simp only [selectLoop, if_pos hm, if_neg hfull, if_pos hroot]
            exact ⟨hmiss, hlen', hv1, hv0⟩
          · simp only [selectLoop, if_pos hm, if_neg hfull, if_neg hroot]
            refine ih (pushLeaf s leaf) hmiss (lt_of_le_of_ne hlen' hfull) hnd.2 ?_ hv1 hv0
            intro l hl hmem
            rcases List.mem_append.mp hmem with hl' | hl'
            · exact h4 l (by rw [freshLeaves]; exact List.mem_cons_of_mem _ hl) hl'
            · exact hnd.1 (List.mem_singleton.mp hl' ▸ hl)
    · simp only [selectLoop, if_neg hm]
      exact ⟨h1, le_of_lt h2, h5, h6⟩

/-- C1: for every `batch_size ≥ 1`, `SelectLeaves` appends at most
`batch_size` pending leaves to the output vector, applies exactly one
virtual loss to each appended leaf and to no other node, and performs
at most `2 * batch_size` non-exempt resolutions: the `misses` counter
is incremented exactly at terminal back-propagations and appended
fresh leaves but never at cache hits, and stays within the bound.
The distinctness of the oracle's fresh leaves is the spec's
virtual-loss diversification contract for `MctsNode::SelectLeaf`. -/
theorem selectLeaves_spec {L : Type} [DecidableEq L] (root : L) (batchSize : ℕ)
    (ds : List (Descent L)) (hb : 1 ≤ batchSize) (hnd : (freshLeaves ds).Nodup) :
    (SelectLeaves root batchSize ds).leaves.length ≤ batchSize
    ∧ (∀ l ∈ (SelectLeaves root batchSize ds).leaves,
        (SelectLeaves root batchSize ds).vloss l = 1)
    ∧ (∀ l, l ∉ (SelectLeaves root batchSize ds).leaves →
        (SelectLeaves root batchSize ds).vloss l = 0)
    ∧ (SelectLeaves root batchSize ds).misses ≤ 2 * batchSize := by
  have h := selectLoop_invariant root batchSize (batchSize * 2) ds ⟨[], fun _ => 0, 0, 0⟩
    (Nat.zero_le _) (lt_of_lt_of_le Nat.zero_lt_one hb) hnd
    (fun l _ hx => (List.not_mem_nil l) hx)
    (fun l hl => absurd hl (List.not_mem_nil l))
    (fun l _ => rfl)
  exact ⟨h.2.1, h.2.2.1, h.2.2.2, le_of_le_of_eq h.1 (Nat.mul_comm batchSize 2)⟩

/-- Witness for `selectLeaves_spec`: batch size 1 and a single fresh
leaf `5` under root `0`. -/
theorem selectLeaves_spec_witness :
    1 ≤ 1 ∧ (freshLeaves [Descent.fresh (5 : ℕ)]).Nodup
    ∧ ((SelectLeaves 0 1 [Descent.fresh (5 : ℕ)]).leaves.length ≤ 1
      ∧ (∀ l ∈ (SelectLeaves 0 1 [Descent.fresh (5 : ℕ)]).leaves,
          (SelectLeaves 0 1 [Descent.fresh (5 : ℕ)]).vloss l = 1)
      ∧ (∀ l, l ∉ (SelectLeaves 0 1 [Descent.fresh (5 : ℕ)]).leaves →
          (SelectLeaves 0 1 [Descent.fresh (5 : ℕ)]).vloss l = 0)
      ∧ (SelectLeaves 0 1 [Descent.fresh (5 : ℕ)]).misses ≤ 2 * 1) :=
  ⟨le_refl 1, by decide, selectLeaves_spec 0 1 [Descent.fresh 5] (le_refl 1) (by decide)⟩

/-- The `while (root_->N() < current_readouts + new_readouts)
TreeSearch()` loop of `SuggestMove` (mcts_player.cc lines 150-155).
`inc k` is the number of readouts the `k`-th `TreeSearch` round adds
to the root's visit count — one per terminal back-propagation, cache
hit or processed batch leaf (tree back-propagation is external code;
one readout per incorporated result is the spec's definition of a
readout).  `fuel` bounds the modelled iteration count. -/
def readLoop (inc : ℕ → ℕ) : ℕ → ℕ → ℕ → ℕ → ℕ
  | 0, _, n, _ => n
  | fuel + 1, k, n, target =>
    if n < target then readLoop inc fuel (k + 1) (n + inc k) target else n

/-- Root state observed by `SuggestMove`: the root's visit count
`N()` and its `kExpanded` flag. -/
structure RootSt where
  visits : ℕ
  expanded : Bool

/-- Embedding of `SuggestMove` with no per-move time budget (`seconds_per_move ==
0`, mcts_player.cc lines 126-155): if the root is unexpanded, first
run one single-leaf round contributing `inc0` readouts, then read
`current_readouts = root_->N()` and loop `TreeSearch` until the visit
count reaches `current_readouts + new_readouts`. -/
def suggestMoveReads (inc0 : ℕ) (inc : ℕ → ℕ) (fuel : ℕ) (s : RootSt)
    (new_readouts : ℕ) : RootSt :=
  let n0 := if s.expanded then s.visits else s.visits + inc0
  ⟨readLoop inc fuel 0 n0 (n0 + new_readouts), true⟩

/-- The readout loop reaches its target whenever every round
contributes at least one readout and the fuel covers the gap. -/
theorem readLoop_ge (inc : ℕ → ℕ) (hinc : ∀ k, 1 ≤ inc k) :
    ∀ fuel k n target : ℕ, target ≤ n + fuel → target ≤ readLoop inc fuel k n target := by
  intro fuel
  induction fuel with
  | zero => intro k n target h; simpa using h
  | succ f ih =>
    intro k n target h
    by_cases hlt : n < target
    · rw [readLoop, if_pos hlt]
      refine ih (k + 1) (n + inc k) target ?_
      have := hinc k
      omega
    · rw [readLoop, if_neg hlt]
      exact le_of_not_lt hlt

/-- The readout loop never overshoots when every round contributes
exactly one readout. -/
theorem readLoop_le (inc : ℕ → ℕ) (hinc : ∀ k, inc k = 1) :
    ∀ fuel k n target : ℕ, n ≤ target → readLoop inc fuel k n target ≤ target := by
  intro fuel
  induction fuel with
  | zero => intro k n target h; simpa using h
  | succ f ih =>
    intro k n target h
    by_cases hlt : n < target
    · rw [readLoop, if_pos hlt]
      refine ih (k + 1) (n + inc k) target ?_
      have := hinc k
      omega
    · rw [readLoop, if_neg hlt]
      exact h

/-- C2 counterexample: with an expanded root at 0 visits and a search
round adding two readouts (as happens whenever `virtual_losses > 1`, a
batch resolves several leaves, or terminal/cached resolutions add
extra visits), a call requesting one extra readout raises the visit
count by two, not exactly one. -/
theorem suggestMove_readouts_counterexample :
    (suggestMoveReads 1 (fun _ => 2) 1 ⟨0, true⟩ 1).visits ≠ 0 + 1 := by decide

/-- C2 amended: with no per-move time budget, two consecutive
`SuggestMove` calls with the same extra-readout count and no
intervening `PlayMove` each increase the root's visit count by AT
LEAST the requested amount (no readouts are lost), stopping at the
first round boundary past the target; the increase is exactly the
requested amount when every search round contributes a single
readout. -/
theorem suggestMove_readouts (inc0 : ℕ) (s : RootSt) (new_readouts fuel1 fuel2 : ℕ)
    (inc1 inc2 : ℕ → ℕ) (hexp : s.expanded = true)
    (hi1 : ∀ k, 1 ≤ inc1 k) (hi2 : ∀ k, 1 ≤ inc2 k)
    (hf1 : new_readouts ≤ fuel1) (hf2 : new_readouts ≤ fuel2) :
    (s.visits + new_readouts ≤ (suggestMoveReads inc0 inc1 fuel1 s new_readouts).visits
      ∧ (suggestMoveReads inc0 inc1 fuel1 s new_readouts).visits + new_readouts
        ≤ (suggestMoveReads inc0 inc2 fuel2
            (suggestMoveReads inc0 inc1 fuel1 s new_readouts) new_readouts).visits)
    ∧ ((∀ k, inc1 k = 1) →
        (suggestMoveReads inc0 inc1 fuel1 s new_readouts).visits = s.visits + new_readouts)
    ∧ ((∀ k, inc2 k = 1) →
        (suggestMoveReads inc0 inc2 fuel2
            (suggestMoveReads inc0 inc1 fuel1 s new_readouts) new_readouts).visits
          = (suggestMoveReads inc0 inc1 fuel1 s new_readouts).visits + new_readouts) := by
  have e1 : (suggestMoveReads inc0 inc1 fuel1 s new_readouts).visits
      = readLoop inc1 fuel1 0 s.visits (s.visits + new_readouts) := by
    simp [suggestMoveReads, hexp]
  have e2 : (suggestMoveReads inc0 inc2 fuel2
        (suggestMoveReads inc0 inc1 fuel1 s new_readouts) new_readouts).visits
      = readLoop inc2 fuel2 0 (suggestMoveReads inc0 inc1 fuel1 s new_readouts).visits
          ((suggestMoveReads inc0 inc1 fuel1 s new_readouts).visits + new_readouts) := by
    simp [suggestMoveReads]
  refine ⟨⟨?_, ?_⟩, ?_, ?_⟩
  · rw [e1]
    exact readLoop_ge inc1 hi1 fuel1 0 s.visits _ (Nat.add_le_add_left hf1 _)
  · rw [e2]
    exact readLoop_ge inc2 hi2 fuel2 0 _ _ (Nat.add_le_add_left hf2 _)
  · intro hone
    rw [e1]
    exact le_antisymm
      (readLoop_le inc1 hone fuel1 0 s.visits _ (Nat.le_add_right _ _))
      (readLoop_ge inc1 hi1 fuel1 0 s.visits _ (Nat.add_le_add_left hf1 _))
  · intro hone
    rw [e2]
    exact le_antisymm
      (readLoop_le inc2 hone fuel2 0 _ _ (Nat.le_add_right _ _))
      (readLoop_ge inc2 hi2 fuel2 0 _ _ (Nat.add_le_add_left hf2 _))

/-- Witness for `suggestMove_readouts`: expanded root with 3 visits,
2 extra readouts per call, unit round contributions. -/
theorem suggestMove_readouts_witness :
    (RootSt.mk 3 true).expanded = true
    ∧ (∀ k : ℕ, 1 ≤ (fun _ : ℕ => 1) k) ∧ (2 : ℕ) ≤ 2
    ∧ (((RootSt.mk 3 true).visits + 2
          ≤ (suggestMoveReads 1 (fun _ => 1) 2 (RootSt.mk 3 true) 2).visits
        ∧ (suggestMoveReads 1 (fun _ => 1) 2 (RootSt.mk 3 true) 2).visits + 2
          ≤ (suggestMoveReads 1 (fun _ => 1) 2
              (suggestMoveReads 1 (fun _ => 1) 2 (RootSt.mk 3 true) 2) 2).visits)
      ∧ ((∀ k : ℕ, (fun _ : ℕ => 1) k = 1) →
          (suggestMoveReads 1 (fun _ => 1) 2 (RootSt.mk 3 true) 2).visits
            = (RootSt.mk 3 true).visits + 2)
      ∧ ((∀ k : ℕ, (fun _ : ℕ => 1) k = 1) →
          (suggestMoveReads 1 (fun _ => 1) 2
              (suggestMoveReads 1 (fun _ => 1) 2 (RootSt.mk 3 true) 2) 2).visits
            = (suggestMoveReads 1 (fun _ => 1) 2 (RootSt.mk 3 true) 2).visits + 2)) :=
  ⟨rfl, fun _ => le_refl 1, le_refl 2,
    suggestMove_readouts 1 (RootSt.mk 3 true) 2 2 2 (fun _ => 1) (fun _ => 1) rfl
      (fun _ => le_refl 1) (fun _ => le_refl 1) (le_refl 2) (le_refl 2)⟩

/-- The eight board symmetries of `symmetry::Symmetry` (cc/symmetries.h,
outside the sources; modelled from the spec's symmetry-augmentation
contract): the dihedral group of the square board. -/
inductive Symmetry where
  | identity
  | rot90
  | rot180
  | rot270
  | flip
  | flipRot90
  | flipRot180
  | flipRot270
deriving DecidableEq

/-- Action of a symmetry on a board cell `(row, col)` of an `n × n`
board; the flipped variants are the rotations composed with the
mirror. -/
def Symmetry.act {n : ℕ} (s : Symmetry) (p : Fin n × Fin n) : Fin n × Fin n :=
  match s with
  | .identity => p
  | .rot90 => (p.2, p.1.rev)
  | .rot180 => (p.1.rev, p.2.rev)
  | .rot270 => (p.2.rev, p.1)
  | .flip => (p.1, p.2.rev)
  | .flipRot90 => (p.2.rev, p.1.rev)
  | .flipRot180 => (p.1.rev, p.2)
  | .flipRot270 => (p.2, p.1)

/-- Embedding of `symmetry::Inverse`: the two quarter turns are mutually inverse,
every other symmetry is its own inverse. -/
def Symmetry.inverse : Symmetry → Symmetry
  | .identity => .identity
  | .rot90 => .rot270
  | .rot180 => .rot180
  | .rot270 => .rot90
  | .flip => .flip
  | .flipRot90 => .flipRot90
  | .flipRot180 => .flipRot180
  | .flipRot270 => .flipRot270

/-- The inverse symmetry undoes the action. -/
theorem Symmetry.inverse_act_act {n : ℕ} (s : Symmetry) (p : Fin n × Fin n) :
    s.inverse.act (s.act p) = p := by
  cases s <;> simp [Symmetry.act, Symmetry.inverse]

/-- The action undoes the inverse symmetry's action. -/
theorem Symmetry.act_inverse_act {n : ℕ} (s : Symmetry) (p : Fin n × Fin n) :
    s.act (s.inverse.act p) = p := by
  cases s <;> simp [Symmetry.act, Symmetry.inverse]

/-- Embedding of `symmetry::ApplySymmetry` on a per-cell array (features with any
channel type, or the board-cell part of a policy): the transformed
array reads the source at the transformed coordinate. -/
def applySym {n : ℕ} {α : Type} (s : Symmetry) (f : Fin n × Fin n → α) :
    Fin n × Fin n → α :=
  fun p => f (s.act p)

/-- Applying a symmetry and then its inverse restores the array. -/
theorem applySym_inverse_applySym {n : ℕ} {α : Type} (s : Symmetry)
    (g : Fin n × Fin n → α) : applySym s.inverse (applySym s g) = g := by
  funext p
  show g (s.act (s.inverse.act p)) = g p
  rw [Symmetry.act_inverse_act]

/-- One `DualNet::Output`: the policy over board cells, the separate
pass ("no-move") entry `policy[Coord::kPass]`, and the scalar value. -/
structure NetOutput (n : ℕ) (α : Type) where
  policy : Fin n × Fin n → α
  passP : α
  value : α

/-- De-augmentation of one leaf's output in `ProcessLeaves`
(mcts_player.cc lines 431-436): apply the inverse of the leaf's chosen
symmetry to the board-cell policy entries, copy the pass entry and the
value through unchanged. -/
def normalizeOutput {n : ℕ} {α : Type} (s : Symmetry) (out : NetOutput n α) :
    NetOutput n α :=
  ⟨applySym s.inverse out.policy, out.passP, out.value⟩

/-- A predictor is symmetry-equivariant when transforming its input
features transforms the board-cell policy the same way and leaves the
pass entry and the value unchanged. -/
def Equivariant {n : ℕ} {α β : Type}
    (pred : (Fin n × Fin n → β) → NetOutput n α) : Prop :=
  ∀ (s : Symmetry) (f : Fin n × Fin n → β),
    pred (applySym s f) = ⟨applySym s (pred f).policy, (pred f).passP, (pred f).value⟩

/-- C3: the policy written back into the tree is the predictor's raw
output with the inverse of the leaf's symmetry applied to the
board-cell entries, the pass entry and the value copied through
unchanged; hence for a symmetry-equivariant predictor, applying
symmetry `s` to the features and the inverse of `s` to the resulting
policy reproduces the predictor's output on the unaugmented input. -/
theorem processLeaves_symmetry {n : ℕ} {α β : Type} (s : Symmetry) (out : NetOutput n α)
    (pred : (Fin n × Fin n → β) → NetOutput n α) (f : Fin n × Fin n → β)
    (hpred : Equivariant pred) :
    normalizeOutput s out = ⟨applySym s.inverse out.policy, out.passP, out.value⟩
    ∧ normalizeOutput s (pred (applySym s f)) = pred f := by
  refine ⟨rfl, ?_⟩
  rw [hpred s f]
  show (⟨applySym s.inverse (applySym s (pred f).policy),
          (pred f).passP, (pred f).value⟩ : NetOutput n α) = pred f
  rw [applySym_inverse_applySym]

/-- Witness for `processLeaves_symmetry`: a 2×2 board, the stub
equivariant predictor whose policy equals its (asymmetric) input
features, and the 90-degree rotation. -/
theorem processLeaves_symmetry_witness :
    Equivariant (fun f : Fin 2 × Fin 2 → ℕ => NetOutput.mk f 7 3)
    ∧ (normalizeOutput Symmetry.rot90
          (NetOutput.mk (fun p : Fin 2 × Fin 2 => p.1.val * 2 + p.2.val) 7 3)
        = ⟨applySym Symmetry.rot90.inverse
            (NetOutput.mk (fun p : Fin 2 × Fin 2 => p.1.val * 2 + p.2.val) 7 3).policy,
            (NetOutput.mk (fun p : Fin 2 × Fin 2 => p.1.val * 2 + p.2.val) 7 3).passP,
            (NetOutput.mk (fun p : Fin 2 × Fin 2 => p.1.val * 2 + p.2.val) 7 3).value⟩
      ∧ normalizeOutput Symmetry.rot90
          ((fun f : Fin 2 × Fin 2 → ℕ => NetOutput.mk f 7 3)
            (applySym Symmetry.rot90 (fun p : Fin 2 × Fin 2 => p.1.val * 2 + p.2.val)))
        = (fun f : Fin 2 × Fin 2 → ℕ => NetOutput.mk f 7 3)
            (fun p : Fin 2 × Fin 2 => p.1.val * 2 + p.2.val)) :=
  ⟨fun _ _ => rfl,
    processLeaves_symmetry Symmetry.rot90
      (NetOutput.mk (fun p : Fin 2 × Fin 2 => p.1.val * 2 + p.2.val) 7 3)
      (fun f : Fin 2 × Fin 2 → ℕ => NetOutput.mk f 7 3)
      (fun p : Fin 2 × Fin 2 => p.1.val * 2 + p.2.val)
      (fun _ _ => rfl)⟩

/-- A move coordinate on an `n × n` board: one of the `n * n` board
cells, the pass move (`Coord::kPass`), or the resignation sentinel
(`Coord::kResign`). -/
inductive Coord (n : ℕ) where
  | cell (i : Fin (n * n))
  | pass
  | resign
deriving DecidableEq

/-- Interpret an index into the `kNumMoves = n*n + 1` move array:
index `n*n` is the pass move. -/
def coordOfIdx {n : ℕ} (i : Fin (n * n + 1)) : Coord n :=
  if h : i.val < n * n then Coord.cell ⟨i.val, h⟩ else Coord.pass

/-- Modelled from the spec: `MctsNode::GetMostVisitedMove` (tree code
outside the sources) returns the most-visited move, first index
winning ties. -/
def GetMostVisitedMove {n : ℕ} (visits : Fin (n * n + 1) → ℕ) : Coord n :=
  coordOfIdx ((List.finRange (n * n + 1)).foldl
    (fun best i => if visits best < visits i then i else best) ⟨0, Nat.succ_pos _⟩)

/-- The in-place prefix-sum pass `cdf[i] += cdf[i-1]` of `PickMove`
(mcts_player.cc lines 178-180), with `acc` the running sum. -/
def prefixCdf (acc : ℚ) : List ℚ → List ℚ
  | [] => []
  | x :: xs => (acc + x) :: prefixCdf (acc + x) xs

/-- The last entry of the prefix-sum array is the total of the list. -/
theorem prefixCdf_getLast :
    ∀ (l : List ℚ) (acc : ℚ), l ≠ [] → (prefixCdf acc l).getLast? = some (acc + l.sum) := by
  intro l
  induction l with
  | nil => intro acc h; exact absurd rfl h
  | cons x xs ih =>
    intro acc _
    cases xs with
    | nil => simp [prefixCdf]
    | cons y ys =>
      have ih' := ih (acc + x) (List.cons_ne_nil y ys)
      show ((acc + x) :: prefixCdf (acc + x) (y :: ys)).getLast? = _
      rw [prefixCdf] at ih' ⊢
      rw [List.getLast?_cons_cons, ih', List.sum_cons, List.sum_cons]
      exact congrArg some (by rw [List.sum_cons]; ring)

/-- Embedding of `MctsPlayer::PickMove` (mcts_player.cc lines 163-193).  At or past
the temperature cutoff, return the most-visited move.  Before it,
build the cumulative array of temperature-exponentiated visit counts
over the `n*n` board cells only (pass excluded), return pass when the
total is zero, else locate a uniform sample `e * total` in the
cumulative array.  `squash` is the map `x ↦ x ^ policy_softmax_temp`
(real-valued exponentiation by `std::pow` is idealised as an abstract
function on counts), `e` the uniform draw `rnd_()`. -/
def PickMove {n : ℕ} (squash : ℕ → ℚ) (moveNum cutoff : ℤ)
    (visits : Fin (n * n + 1) → ℕ) (e : ℚ) : Coord n :=
  if cutoff ≤ moveNum then GetMostVisitedMove visits
  else
    let w := (List.finRange (n * n)).map (fun i => squash (visits i.castSucc))
    let cdf := prefixCdf 0 w
    let total := (cdf.getLast?).getD 0
    if total = 0 then Coord.pass
    else
      let idx := List.findIdx (fun v => decide (e * total < v)) cdf
      if h : idx < n * n then Coord.cell ⟨idx, h⟩ else Coord.pass

/-- C7: before the temperature cutoff with every board-cell visit
count zero, `PickMove` returns the pass move (no division by zero or
undefined sample); at or past the cutoff it returns the most-visited
move for every move index.  `squash 0 = 0` is `pow(0, t) = 0` for the
positive softmax temperature. -/
theorem pickMove_spec {n : ℕ} (squash : ℕ → ℚ) (moveNum cutoff : ℤ)
    (visits : Fin (n * n + 1) → ℕ) (e : ℚ) (hsq : squash 0 = 0) :
    (moveNum < cutoff → (∀ i : Fin (n * n), visits i.castSucc = 0) →
      PickMove squash moveNum cutoff visits e = Coord.pass)
    ∧ (cutoff ≤ moveNum →
      PickMove squash moveNum cutoff visits e = GetMostVisitedMove visits) := by
  constructor
  · intro hlt hzero
    have hng : ¬ cutoff ≤ moveNum := not_le.mpr hlt
    have hsum : ((List.finRange (n * n)).map (fun i => squash (visits i.castSucc))).sum = 0 := by
      refine List.sum_eq_zero ?_
      intro x hx
      rcases List.mem_map.mp hx with ⟨i, _, he⟩
      rw [← he, hzero i, hsq]
    rw [PickMove, if_neg hng]
    cases hwl : (List.finRange (n * n)).map (fun i => squash (visits i.castSucc)) with
    | nil => simp [hwl, prefixCdf]
    | cons x xs =>
      rw [hwl] at hsum
      have hlast := prefixCdf_getLast (x :: xs) 0 (List.cons_ne_nil x xs)
      rw [hsum, add_zero] at hlast
      simp [hwl, hlast]
  · intro hle
    rw [PickMove, if_pos hle]

/-- Witness for `pickMove_spec`: a 1×1 board with all visit counts
zero, move number 0, cutoff 5, identity squashing. -/
theorem pickMove_spec_witness :
    ((fun m : ℕ => (m : ℚ)) 0 = 0)
    ∧ (((0 : ℤ) < 5 →
        (∀ i : Fin (1 * 1), (fun _ : Fin (1 * 1 + 1) => (0 : ℕ)) i.castSucc = 0) →
        PickMove (n := 1) (fun m : ℕ => (m : ℚ)) 0 5 (fun _ => 0) 0 = Coord.pass)
      ∧ ((5 : ℤ) ≤ 0 →
        PickMove (n := 1) (fun m : ℕ => (m : ℚ)) 0 5 (fun _ => 0) 0
          = GetMostVisitedMove (n := 1) (fun _ => 0)))
    ∧ PickMove (n := 1) (fun m : ℕ => (m : ℚ)) 0 5 (fun _ => 0) 0 = Coord.pass := by
  have h := pickMove_spec (n := 1) (fun m : ℕ => (m : ℚ)) 0 5 (fun _ => 0) 0 (by norm_num)
  exact ⟨by norm_num, h, h.1 (by norm_num) (fun _ => rfl)⟩

/-- The per-move weights of `UpdateGame`'s search-pi computation
(mcts_player.cc lines 340-350): temperature-exponentiated child visit
counts before the temperature cutoff, raw counts at or after it.
`k` is the full move-space size `kNumMoves` (board cells and pass). -/
def searchPiWeights {k : ℕ} (squash : ℕ → ℚ) (moveNum cutoff : ℤ)
    (childN : Fin k → ℕ) : Fin k → ℚ :=
  fun i => if moveNum < cutoff then squash (childN i) else (childN i : ℚ)

/-- The move-probability distribution `search_pi` forwarded by
`UpdateGame` to the game history (mcts_player.cc lines 339-358):
the weights divided by their total. -/
def searchPi {k : ℕ} (squash : ℕ → ℚ) (moveNum cutoff : ℤ)
    (childN : Fin k → ℕ) : Fin k → ℚ :=
  fun i => searchPiWeights squash moveNum cutoff childN i
    / ∑ j, searchPiWeights squash moveNum cutoff childN j

/-- C8: the distribution `UpdateGame` forwards is the
temperature-exponentiated child visit counts before the cutoff and
the raw counts at or after it, each entry divided by the total
weight, and (whenever the total weight is nonzero) it sums to one. -/
theorem updateGame_distribution {k : ℕ} (squash : ℕ → ℚ) (moveNum cutoff : ℤ)
    (childN : Fin k → ℕ)
    (hsum : (∑ j, searchPiWeights squash moveNum cutoff childN j) ≠ 0) :
    (moveNum < cutoff → ∀ i, searchPi squash moveNum cutoff childN i
        = squash (childN i) / ∑ j, searchPiWeights squash moveNum cutoff childN j)
    ∧ (cutoff ≤ moveNum → ∀ i, searchPi squash moveNum cutoff childN i
        = (childN i : ℚ) / ∑ j, searchPiWeights squash moveNum cutoff childN j)
    ∧ (∑ i, searchPi squash moveNum cutoff childN i) = 1 := by
  refine ⟨?_, ?_, ?_⟩
  · intro h i
    rw [searchPi]
    rw [searchPiWeights]  -- rewrite only the numerator occurrence first
    rw [if_pos h]
  · intro h i
    rw [searchPi, searchPiWeights, if_neg (not_lt.mpr h)]
  · simp only [searchPi]
    rw [← Finset.sum_div, div_self hsum]

/-- Witness for `updateGame_distribution`: three moves with visit
counts 1, 2, 3 at a move index past the cutoff. -/
theorem updateGame_distribution_witness :
    (∑ j, searchPiWeights (k := 3) Nat.cast 7 0 Fin.val j) ≠ 0
    ∧ (((7 : ℤ) < 0 → ∀ i : Fin 3, searchPi (k := 3) Nat.cast 7 0 Fin.val i
          = (Nat.cast (Fin.val i) : ℚ)
            / ∑ j : Fin 3, searchPiWeights (k := 3) Nat.cast 7 0 Fin.val j)
      ∧ ((0 : ℤ) ≤ 7 → ∀ i : Fin 3, searchPi (k := 3) Nat.cast 7 0 Fin.val i
          = (Nat.cast (Fin.val i) : ℚ)
            / ∑ j : Fin 3, searchPiWeights (k := 3) Nat.cast 7 0 Fin.val j)
      ∧ (∑ i : Fin 3, searchPi (k := 3) Nat.cast 7 0 Fin.val i) = 1) := by
  have hsum : (∑ j, searchPiWeights (k := 3) Nat.cast 7 0 Fin.val j) ≠ 0 := by
    rw [Fin.sum_univ_three]
    norm_num [searchPiWeights]
  exact ⟨hsum, updateGame_distribution Nat.cast 7 0 Fin.val hsum⟩

/-- One `MctsPlayer::InferenceInfo` record: the serving model
identifier and the move-index range and evaluation count it covers. -/
structure Inference where
  model : String
  first_move : ℤ
  last_move : ℤ
  total_count : ℕ
deriving DecidableEq

/-- Mutate the last element of a list in place (`inferences_.back()`). -/
def updateLast {α : Type} (f : α → α) : List α → List α
  | [] => []
  | [r] => [f r]
  | r :: rest => r :: updateLast f rest

/-- Updating the last element touches exactly the final element. -/
theorem updateLast_append {α : Type} (f : α → α) (l : List α) (r : α) :
    updateLast f (l ++ [r]) = l ++ [f r] := by
  induction l with
  | nil => rfl
  | cons x xs ih =>
    cases xs with
    | nil => rfl
    | cons y ys => exact congrArg (List.cons x) ih

/-- The inference-record bookkeeping of `ProcessLeaves`
(mcts_player.cc lines 415-422): when the serving model reported a
nonempty identifier, append a fresh record anchored at the root's move
index if no record exists or the identifier changed, then set the last
record's `last_move` to the root's move index and add the batch size
to its evaluation count. -/
def recordInference (model : String) (rootN : ℤ) (batch : ℕ)
    (infs : List Inference) : List Inference :=
  if model = "" then infs
  else
    let needNew : Bool :=
      match infs.getLast? with
      | none => true
      | some r => model != r.model
    let infs1 := if needNew then infs ++ [⟨model, rootN, rootN, 0⟩] else infs
    updateLast (fun r => ⟨r.model, r.first_move, rootN, r.total_count + batch⟩) infs1

/-- C9: the inference-record list only grows.  A new record (anchored
at the current root's move index, with the batch size as its count) is
appended exactly when no record exists or the serving model differs
from the last recorded one; otherwise only the last record is mutated
(its `last_move` set to the root's move index, its count incremented
by the batch size).  In either case every earlier record is kept
unchanged in order. -/
theorem processLeaves_inferences (model : String) (rootN : ℤ) (batch : ℕ)
    (infs : List Inference) (hm : model ≠ "") :
    (infs = [] →
      recordInference model rootN batch infs = infs ++ [⟨model, rootN, rootN, batch⟩])
    ∧ (∀ r, infs.getLast? = some r → r.model ≠ model →
      recordInference model rootN batch infs = infs ++ [⟨model, rootN, rootN, batch⟩])
    ∧ (∀ r, infs.getLast? = some r → r.model = model →
      recordInference model rootN batch infs
        = infs.dropLast ++ [⟨r.model, r.first_move, rootN, r.total_count + batch⟩]) := by
  refine ⟨?_, ?_, ?_⟩
  · intro he
    subst he
    simp [recordInference, hm, updateLast]
  · intro r hr hne
    have hb : (model != r.model) = true := bne_iff_ne.mpr (fun h => hne h.symm)
    rw [recordInference, if_neg hm]
    simp only [hr, hb, if_pos]
    rw [updateLast_append]
    simp
  · intro r hr  hre
    have hb : (model != r.model) = false := by
      rw [hre]
      exact bne_self_eq_false model
    have hsplit : infs.dropLast ++ [r] = infs :=
      List.dropLast_append_getLast? r (by rw [hr]; rfl)
    rw [recordInference, if_neg hm]
    simp only [hr, hb, Bool.false_eq_true, if_neg, if_false]
    calc updateLast (fun t => ⟨t.model, t.first_move, rootN, t.total_count + batch⟩) infs
      = updateLast (fun t => ⟨t.model, t.first_move, rootN, t.total_count + batch⟩)
          (infs.dropLast ++ [r]) := by rw [hsplit]
    _ = infs.dropLast ++ [⟨r.model, r.first_move, rootN, r.total_count + batch⟩] := by
          rw [updateLast_append]

/-- Witness for `processLeaves_inferences`: one existing record for
model "a", a batch of 2 leaves served by model "b" at move 7. -/
theorem processLeaves_inferences_witness :
    ("b" : String) ≠ ""
    ∧ (([⟨"a", 0, 3, 5⟩] : List Inference) = [] →
        recordInference "b" 7 2 [⟨"a", 0, 3, 5⟩]
          = [⟨"a", 0, 3, 5⟩] ++ [⟨"b", 7, 7, 2⟩])
    ∧ (∀ r, ([⟨"a", 0, 3, 5⟩] : List Inference).getLast? = some r → r.model ≠ "b" →
        recordInference "b" 7 2 [⟨"a", 0, 3, 5⟩]
          = [⟨"a", 0, 3, 5⟩] ++ [⟨"b", 7, 7, 2⟩])
    ∧ (∀ r, ([⟨"a", 0, 3, 5⟩] : List Inference).getLast? = some r → r.model = "b" →
        recordInference "b" 7 2 [⟨"a", 0, 3, 5⟩]
          = ([⟨"a", 0, 3, 5⟩] : List Inference).dropLast
              ++ [⟨r.model, r.first_move, 7, r.total_count + 2⟩]) := by
  have h := processLeaves_inferences "b" 7 2 [⟨"a", 0, 3, 5⟩] (by decide)
  exact ⟨by decide, h.1, h.2.1, h.2.2⟩

/-- Player state visible to `PlayMove`: the game-over flag of the
root, position legality, the root pointer (as the path of moves from
the game root), the root's visit count, the move history held by the
external `Game`, and the tree-reuse option. -/
structure PlayerSt (n : ℕ) where
  over : Bool
  legal : Coord n → Bool
  rootPath : List (Coord n)
  rootVisits : ℕ
  history : List (Coord n)
  treeReuse : Bool

/-- Embedding of `MctsPlayer::PlayMove` (mcts_player.cc lines 265-317): fail when
the game is over; mark the game over on a resignation; fail when the
move is illegal; otherwise record the move (`UpdateGame` appends it to
the game history) and advance the root to the child for the move.
`childVisits` is the advanced-to child's visit count and `newOver` the
external position's game-over determination (move limit or consecutive
passes) after the move. -/
def PlayMove {n : ℕ} (s : PlayerSt n) (c : Coord n) (childVisits : ℕ)
    (newOver : Bool) : Bool × PlayerSt n :=
  if s.over then (false, s)
  else if c = Coord.resign then (true, { s with over := true })
  else if s.legal c = false then (false, s)
  else
    (true, ⟨newOver, s.legal, s.rootPath ++ [c], childVisits, s.history ++ [c], s.treeReuse⟩)

/-- C6: `PlayMove` returns failure when the game is already over, and
when a (non-resign) move is illegal on the current position; in both
failure cases the entire player state — root pointer, root visit
count, game history — is returned unchanged. -/
theorem playMove_failure {n : ℕ} (s : PlayerSt n) (c : Coord n) (v : ℕ) (o : Bool) :
    (s.over = true → PlayMove s c v o = (false, s))
    ∧ (s.over = false → c ≠ Coord.resign → s.legal c = false →
        PlayMove s c v o = (false, s)) := by
  constructor
  · intro h
    simp [PlayMove, h]
  · intro h hr hl
    simp [PlayMove, h, hr, hl]

/-- Witness for `playMove_failure`: a finished game rejecting a pass,
and an unfinished game rejecting an illegal pass. -/
theorem playMove_failure_witness :
    (PlayMove (n := 1) ⟨true, fun _ => true, [], 3, [], true⟩ Coord.pass 0 false
      = (false, ⟨true, fun _ => true, [], 3, [], true⟩))
    ∧ (PlayMove (n := 1) ⟨false, fun _ => false, [], 3, [], true⟩ Coord.pass 0 false
      = (false, ⟨false, fun _ => false, [], 3, [], true⟩)) :=
  ⟨(playMove_failure ⟨true, fun _ => true, [], 3, [], true⟩ Coord.pass 0 false).1 rfl,
    (playMove_failure ⟨false, fun _ => false, [], 3, [], true⟩ Coord.pass 0 false).2
      rfl (by decide) rfl⟩

/-- A tree node's accumulated data: visit count and materialized
children.  A freshly constructed `MctsNode` has neither. -/
structure TreeNode (n : ℕ) where
  visits : ℕ
  children : List (Coord n)
deriving DecidableEq

/-- Player state visible to `UndoMove`: the root pointer as the path
of moves from the game root (empty path = `game_root_`), the game
history, the tree contents addressed by path, and the tree-reuse
option. -/
structure UndoSt (n : ℕ) where
  rootPath : List (Coord n)
  history : List (Coord n)
  nodes : List (Coord n) → TreeNode n
  treeReuse : Bool

/-- Embedding of `MctsPlayer::UndoMove` (mcts_player.cc lines 102-117): fail at the
game root; otherwise move the root pointer to its parent, undo one
move in the game history, and when tree reuse is disabled replace the
restored root with a fresh node. -/
def UndoMove {n : ℕ} (s : UndoSt n) : Bool × UndoSt n :=
  if s.rootPath = [] then (false, s)
  else
    let newPath := s.rootPath.dropLast
    let s1 : UndoSt n := { s with rootPath := newPath, history := s.history.dropLast }
    if s.treeReuse then (true, s1)
    else (true, { s1 with nodes := fun p => if p = newPath then ⟨0, []⟩ else s1.nodes p })

/-- C10: `UndoMove` returns false and changes no state at the game
root; otherwise it returns true, moves the root pointer to its parent,
undoes exactly one move in the game history, and — only when tree
reuse is disabled — replaces the restored root with a fresh node,
leaving every other node untouched. -/
theorem undoMove_spec {n : ℕ} (s : UndoSt n) :
    (s.rootPath = [] → UndoMove s = (false, s))
    ∧ (s.rootPath ≠ [] →
        (UndoMove s).1 = true
        ∧ (UndoMove s).2.rootPath = s.rootPath.dropLast
        ∧ (UndoMove s).2.history = s.history.dropLast
        ∧ (s.treeReuse = true → (UndoMove s).2.nodes = s.nodes)
        ∧ (s.treeReuse = false →
            (UndoMove s).2.nodes s.rootPath.dropLast = ⟨0, []⟩
            ∧ ∀ p, p ≠ s.rootPath.dropLast → (UndoMove s).2.nodes p = s.nodes p)) := by
  constructor
  · intro h
    simp [UndoMove, h]
  · intro h
    by_cases ht : s.treeReuse
    · refine ⟨?_, ?_, ?_, fun _ => ?_, fun hf => ?_⟩ <;>
        simp [UndoMove, h, ht]
      rw [ht] at hf
      exact absurd hf (by simp)
    · refine ⟨?_, ?_, ?_, fun htt => absurd htt ht, fun _ => ⟨?_, fun p hp => ?_⟩⟩ <;>
        simp [UndoMove, h, ht]
      intro hp'
      exact absurd hp' hp

/-- Witness for `undoMove_spec`: one move from the game root, tree
reuse disabled, a node map holding visits and children. -/
theorem undoMove_spec_witness :
    (([Coord.pass] : List (Coord 1)) ≠ [])
    ∧ ((UndoMove (n := 1)
          ⟨[Coord.pass], [Coord.pass], fun _ => ⟨2, [Coord.pass]⟩, false⟩).1 = true
      ∧ (UndoMove (n := 1)
          ⟨[Coord.pass], [Coord.pass], fun _ => ⟨2, [Coord.pass]⟩, false⟩).2.rootPath
          = ([Coord.pass] : List (Coord 1)).dropLast
      ∧ (UndoMove (n := 1)
          ⟨[Coord.pass], [Coord.pass], fun _ => ⟨2, [Coord.pass]⟩, false⟩).2.history
          = ([Coord.pass] : List (Coord 1)).dropLast
      ∧ ((false : Bool) = true → (UndoMove (n := 1)
          ⟨[Coord.pass], [Coord.pass], fun _ => ⟨2, [Coord.pass]⟩, false⟩).2.nodes
          = fun _ => ⟨2, [Coord.pass]⟩)
      ∧ ((false : Bool) = false →
          (UndoMove (n := 1)
            ⟨[Coord.pass], [Coord.pass], fun _ => ⟨2, [Coord.pass]⟩, false⟩).2.nodes
            ([Coord.pass] : List (Coord 1)).dropLast = ⟨0, []⟩
          ∧ ∀ p, p ≠ ([Coord.pass] : List (Coord 1)).dropLast →
              (UndoMove (n := 1)
                ⟨[Coord.pass], [Coord.pass], fun _ => ⟨2, [Coord.pass]⟩, false⟩).2.nodes p
                = (fun _ => (⟨2, [Coord.pass]⟩ : TreeNode 1)) p)) :=
  ⟨by decide,
    (undoMove_spec ⟨[Coord.pass], [Coord.pass], fun _ => ⟨2, [Coord.pass]⟩, false⟩).2
      (by decide)⟩

end Minigo
